import Mathlib

/-!
Verification of the typewriting-monkey streaming engine.

The definitions below are a shallow embedding of the server core:
the deterministic generator (src/server/core/monkey.ts), the sliding-window
word detector (src/server/core/word-detector.ts), the startup scanner
(src/server/core/startup-scanner.ts), the chunk stores
(src/server/storage/memory-chunk-store.ts and firestore-chunk-store.ts,
with the Firestore document database modelled as an explicit backend state),
the /v1/chars route and the generation tick loop (src/server/app.ts).
JavaScript strings become `List Char`, JavaScript numbers become `Nat`/`Int`
(`ℚ` for the fractional carry accumulator), and the asynchronous single-writer
core becomes explicit state passing.
-/

namespace TM

/-! ### Word detector (src/server/core/word-detector.ts) -/

/-- A detected dictionary word: absolute start index, length and matched text. -/
structure WordHit where
  start : Int
  len : Nat
  word : List Char
deriving DecidableEq

def MIN_LEN : Nat := 3

def MAX_LEN : Nat := 12

/-- Dictionary loading: `WORDS` keeps exactly the lines of length ≥ MIN_LEN. -/
def loadDict (file : List (List Char)) : List (List Char) :=
  file.filter (fun w => decide (MIN_LEN ≤ w.length))

/-- The last `n` characters of a buffer (JavaScript `s.slice(-n)` for `n > 0`). -/
def lastN (n : Nat) (l : List Char) : List Char := l.drop (l.length - n)

/-- Window update in `push`: append `ch`; if the window now exceeds MAX_LEN,
drop the leading character (`this.window.slice(1)`). -/
def pushWindow (w : List Char) (ch : Char) : List Char :=
  let w' := w ++ [ch]
  if MAX_LEN < w'.length then w'.drop 1 else w'

/-- The scan loop of `push`: `n` runs downwards while `n ≥ MIN_LEN`; the first
(longest) suffix of the window found in the dictionary is emitted. -/
def scanDown (dict : List (List Char)) (w : List Char) (pos : Nat) :
    Nat → Option WordHit
  | 0 => none
  | n + 1 =>
    if n + 1 < MIN_LEN then none
    else if lastN (n + 1) w ∈ dict then
      some ⟨(pos : Int) - (n + 1) + 1, n + 1, lastN (n + 1) w⟩
    else scanDown dict w pos n

/-- Embeds `WordDetector.push(ch, absolutePosition)`: update the window, then scan
suffix lengths from `min(MAX_LEN, window.length)` down to `MIN_LEN`. -/
def push (dict : List (List Char)) (w : List Char) (ch : Char) (pos : Nat) :
    List Char × Option WordHit :=
  let w' := pushWindow w ch
  (w', scanDown dict w' pos (min MAX_LEN w'.length))

/-- The characters of a stream at positions `[s0, s0 + k)`. -/
def sliceL (stream : Nat → Char) (s0 k : Nat) : List Char :=
  (List.range k).map (fun i => stream (s0 + i))

/-- Feed a list of characters through the detector, the first at absolute
position `pos`, collecting every emitted hit in order. -/
def runDet (dict : List (List Char)) (w : List Char) (pos : Nat) :
    List Char → List Char × List WordHit
  | [] => (w, [])
  | ch :: rest =>
    let p := push dict w ch pos
    let r := runDet dict p.1 (pos + 1) rest
    (r.1, p.2.toList ++ r.2)

/-- Hits of one uninterrupted detector run over stream positions `[0, cursor)`. -/
def fullRunHits (dict : List (List Char)) (stream : Nat → Char) (cursor : Nat) :
    List WordHit :=
  (runDet dict [] 0 (sliceL stream 0 cursor)).2

/-- The hit (if any) a detector that was fed stream positions `[s0, q]` from a
fresh window emits while processing position `q`: its window is then the last
MAX_LEN of those characters. -/
def posHit (dict : List (List Char)) (stream : Nat → Char) (s0 q : Nat) :
    Option WordHit :=
  scanDown dict (lastN MAX_LEN (sliceL stream s0 (q + 1 - s0))) q
    (min MAX_LEN (lastN MAX_LEN (sliceL stream s0 (q + 1 - s0))).length)

/-! ### Startup scanner (src/server/core/startup-scanner.ts) -/

/-- Embeds `const startPosition = Math.max(0, lastPersistedPosition - 20)`. -/
def scanStartPosition (lastPersistedPosition : Nat) : Nat :=
  max 0 (lastPersistedPosition - 20)

/-- The body of the scanner's `for (const ch of text)` loop: push each character
at its absolute position; the `word` listener keeps hits with
`hit.start ≥ lastPersistedPosition`. -/
def feedChars (dict : List (List Char)) (H : Nat) :
    List Char → List Char → Nat → List WordHit → List Char × Nat × List WordHit
  | [], w, absPos, acc => (w, absPos, acc)
  | ch :: rest, w, absPos, acc =>
    let p := push dict w ch absPos
    feedChars dict H rest p.1 (absPos + 1)
      (acc ++ p.2.toList.filter (fun h => decide ((H : Int) ≤ h.start)))

/-- The scanner's `while (readPosition < currentCursor)` loop, reading slices of
size `SCAN_CHUNK_SIZE = 8192`.  The first argument is fuel bounding the number
of iterations: each iteration advances `readPos` by at least one, so any fuel
≥ `cursor - readPos` runs the loop to completion. -/
def scanLoop (dict : List (List Char)) (readSlice : Nat → Nat → List Char)
    (cursor H : Nat) :
    Nat → Nat → Nat → List Char → List WordHit → List WordHit
  | 0, _, _, _, acc => acc
  | fuel + 1, readPos, absPos, w, acc =>
    if readPos < cursor then
      let len := min 8192 (cursor - readPos)
      let text := readSlice readPos len
      let f := feedChars dict H text w absPos acc
      scanLoop dict readSlice cursor H fuel (readPos + len) f.2.1 f.1 f.2.2
    else acc

/-- Embeds `StartupScanner.scanMissingWords(lastPersistedPosition)` over an abstract
chunk store given by its `readSlice` and `cursor`. -/
def scanMissingWords (dict : List (List Char)) (readSlice : Nat → Nat → List Char)
    (cursor lastPersistedPosition : Nat) : List WordHit :=
  if cursor ≤ lastPersistedPosition then []
  else
    let s0 := scanStartPosition lastPersistedPosition
    scanLoop dict readSlice cursor lastPersistedPosition (cursor - s0) s0 s0 [] []

/-! ### Chunk stores (src/server/storage) -/

def CHUNK_SIZE : Nat := 8192

/-- The shared `readSlice(start, len)` algorithm: empty for `len ≤ 0`; otherwise
concatenate the chunks of the inclusive id range `[first, last]` and cut
`[offset, offset + len)` out of the blob. -/
def sliceAlg (chunkAt : Nat → List Char) (start len : Nat) : List Char :=
  if len = 0 then []
  else
    let first := start / CHUNK_SIZE
    let last := (start + len - 1) / CHUNK_SIZE
    let blob := ((List.range' first (last - first + 1)).map chunkAt).flatten
    let offset := start - first * CHUNK_SIZE
    (blob.drop offset).take len

/-- MemoryChunkStore: finished chunks in a map, plus the hot buffer. -/
structure MemoryChunkStore where
  chunks : Nat → Option (List Char)
  hot : List Char
  hotId : Nat
  cursor : Nat

def MemoryChunkStore.empty : MemoryChunkStore := ⟨fun _ => none, [], 0, 0⟩

/-- Embeds `append(ch)`: take the next index, extend the hot buffer; on reaching
CHUNK_SIZE, `flush` freezes the buffer into the map and rolls the id forward. -/
def MemoryChunkStore.append (st : MemoryChunkStore) (ch : Char) :
    MemoryChunkStore × Nat :=
  let idx := st.cursor
  let hot' := st.hot ++ [ch]
  if hot'.length = CHUNK_SIZE then
    (⟨fun id => if id = st.hotId then some hot' else st.chunks id,
      [], st.hotId + 1, st.cursor + 1⟩, idx)
  else
    (⟨st.chunks, hot', st.hotId, st.cursor + 1⟩, idx)

/-- Embeds `readChunk(id)`: the hot buffer for the hot id, else the finished chunk
(missing chunk → empty string). -/
def MemoryChunkStore.readChunk (st : MemoryChunkStore) (id : Nat) : List Char :=
  if id = st.hotId then st.hot else (st.chunks id).getD []

def MemoryChunkStore.readSlice (st : MemoryChunkStore) (start len : Nat) :
    List Char :=
  sliceAlg st.readChunk start len

/-- The store obtained by appending the characters of `l` in order to a fresh
store. -/
def MemoryChunkStore.ofList (l : List Char) : MemoryChunkStore :=
  l.foldl (fun st ch => (st.append ch).1) MemoryChunkStore.empty

/-- The Firestore documents touched by the store: `chunks/chunk_{id}` and
`meta/cursor`. -/
structure Backend where
  chunks : Nat → Option (List Char)
  cursorDoc : Option Nat

def Backend.empty : Backend := ⟨fun _ => none, none⟩

/-- Embeds `Map.get` of the 32-entry LRU cache (insertion order, most recent last). -/
def lruGet (cache : List (Nat × List Char)) (id : Nat) : Option (List Char) :=
  (cache.find? (fun e => decide (e.1 = id))).map (fun e => e.2)

/-- Embeds `LRUCache.set`: delete an existing entry to bump it to the front, insert,
then evict the oldest entry when the capacity of 32 is exceeded. -/
def lruSet (cache : List (Nat × List Char)) (id : Nat) (text : List Char) :
    List (Nat × List Char) :=
  let c := (cache.filter (fun e => decide (e.1 ≠ id))) ++ [(id, text)]
  if 32 < c.length then c.drop 1 else c

/-- FirestoreChunkStore's in-memory state: the working chunk, its id, the
cursor, the dirty flag and the finished-chunk cache. -/
structure FirestoreChunkStore where
  workingChunk : List Char
  workingChunkId : Nat
  cursor : Nat
  cursorDirty : Bool
  cache : List (Nat × List Char)

/-- Embeds `append(ch)`: take the next index, extend the working chunk, mark the cursor
dirty; on reaching CHUNK_SIZE, `flush()` commits one batch writing both the full
chunk document and `meta/cursor`, warms the cache and rolls forward. -/
def FirestoreChunkStore.append (st : FirestoreChunkStore) (be : Backend)
    (ch : Char) : FirestoreChunkStore × Backend × Nat :=
  let idx := st.cursor
  let wc' := st.workingChunk ++ [ch]
  if wc'.length = CHUNK_SIZE then
    (⟨[], st.workingChunkId + 1, st.cursor + 1, false,
       lruSet st.cache st.workingChunkId wc'⟩,
     ⟨fun i => if i = st.workingChunkId then some wc' else be.chunks i,
      some (st.cursor + 1)⟩,
     idx)
  else
    (⟨wc', st.workingChunkId, st.cursor + 1, true, st.cache⟩, be, idx)

/-- Embeds `flushCursor()`: if dirty, commit one batch writing the partial working
chunk document and `meta/cursor`, then clear the dirty flag. -/
def FirestoreChunkStore.flushCursor (st : FirestoreChunkStore) (be : Backend) :
    FirestoreChunkStore × Backend :=
  if st.cursorDirty then
    (⟨st.workingChunk, st.workingChunkId, st.cursor, false, st.cache⟩,
     ⟨fun i => if i = st.workingChunkId then some st.workingChunk else be.chunks i,
      some st.cursor⟩)
  else (st, be)

/-- Embeds `close()`: cancel the timer (no observable state here) and flush once. -/
def FirestoreChunkStore.close (st : FirestoreChunkStore) (be : Backend) :
    FirestoreChunkStore × Backend :=
  FirestoreChunkStore.flushCursor st be

/-- Embeds `FirestoreChunkStore.create()`: read `meta/cursor` (absent → 0), compute the
working id, fetch its chunk document; adopt a partial chunk as the working
buffer, or seat a full one in the cache and roll forward. -/
def FirestoreChunkStore.create (be : Backend) : FirestoreChunkStore :=
  let cursor := be.cursorDoc.getD 0
  let wid := cursor / CHUNK_SIZE
  match be.chunks wid with
  | some text =>
    if text.length = CHUNK_SIZE then
      ⟨[], wid + 1, cursor, false, lruSet [] wid text⟩
    else ⟨text, wid, cursor, false, []⟩
  | none => ⟨[], wid, cursor, false, []⟩

/-- Embeds `readChunk(id)`: the working buffer for the working id; else the cache;
else the backend document (absent → empty string).  The install of a fetched
chunk into the cache only changes the cache, never the returned text, and is
not tracked here. -/
def FirestoreChunkStore.readChunk (st : FirestoreChunkStore) (be : Backend)
    (id : Nat) : List Char :=
  if id = st.workingChunkId then st.workingChunk
  else
    match lruGet st.cache id with
    | some t => t
    | none => (be.chunks id).getD []

def FirestoreChunkStore.readSlice (st : FirestoreChunkStore) (be : Backend)
    (start len : Nat) : List Char :=
  sliceAlg (st.readChunk be) start len

/-- Operations the single writer and the flush timer perform on the store. -/
inductive StoreOp where
  | app (ch : Char)
  | tick
deriving DecidableEq

/-- Run a sequence of appends and cursor-flush timer ticks against a store
created over an empty backend. -/
def execOps (ops : List StoreOp) : FirestoreChunkStore × Backend :=
  ops.foldl
    (fun sb op =>
      match op with
      | .app ch =>
        let r := FirestoreChunkStore.append sb.1 sb.2 ch
        (r.1, r.2.1)
      | .tick => FirestoreChunkStore.flushCursor sb.1 sb.2)
    (FirestoreChunkStore.create Backend.empty, Backend.empty)

/-- The characters appended by a sequence of operations, in order. -/
def appendedChars (ops : List StoreOp) : List Char :=
  ops.filterMap (fun op => match op with | .app ch => some ch | .tick => none)

/-! ### REST route GET /v1/chars (src/server/app.ts) -/

/-- The result of JavaScript `Number(req.query...)`: NaN, an infinity, or a
finite value (finite values modelled as integers). -/
inductive JSNum where
  | nan
  | posInf
  | negInf
  | fin (v : Int)
deriving DecidableEq

def JSNum.isFinite : JSNum → Bool
  | .fin _ => true
  | _ => false

def JSNum.val : JSNum → Int
  | .fin v => v
  | _ => 0

inductive CharsResponse where
  | badRequest
  | ok (body : List Char)
deriving DecidableEq

/-- The `/chars` handler: reject with 400 unless both parameters are finite,
`start ≥ 0`, `0 < len ≤ CHUNK_SIZE * 16`; otherwise answer `readSlice`. -/
def charsRoute (st : FirestoreChunkStore) (be : Backend) (start len : JSNum) :
    CharsResponse :=
  if !start.isFinite || !len.isFinite || decide (start.val < 0)
      || decide (len.val ≤ 0) || decide ((CHUNK_SIZE : Int) * 16 < len.val) then
    .badRequest
  else
    .ok (st.readSlice be start.val.toNat len.val.toNat)

/-! ### Broadcast ordering (src/server/app.ts tick loop wiring) -/

/-- Broadcast events observed by subscribers. -/
inductive Ev where
  | char (index : Nat) (ch : Char)
  | word (hit : WordHit)
deriving DecidableEq

/-- Event trace of generating the first `n` characters.  Inside `monkey.next()`
the `tick` event synchronously runs `detector.push`, whose `word` listener
broadcasts the word; only after `next()` returns does the loop broadcast the
`char` event.  Returns (detector window, trace). -/
def charTrace (dict : List (List Char)) (stream : Nat → Char) :
    Nat → List Char × List Ev
  | 0 => ([], [])
  | n + 1 =>
    let r := charTrace dict stream n
    let p := push dict r.1 (stream n) n
    (p.1, r.2 ++ p.2.toList.map Ev.word ++ [Ev.char n (stream n)])

/-- The indices of the char events of a trace, in broadcast order. -/
def charIndices (tr : List Ev) : List Nat :=
  tr.filterMap (fun e => match e with | .char i _ => some i | .word _ => none)

/-- Position of the first occurrence of an event in a trace. -/
def idxOfEv (tr : List Ev) (e : Ev) : Nat := tr.findIdx (fun x => decide (x = e))

/-! ### Generation pacing (src/server/app.ts tick loop) -/

/-- The constant `STEP_MS = 1000 / 60`, as an exact rational. -/
def STEP_MS : ℚ := 1000 / 60

/-- Embeds `charsPerSecond()` for a constant `usersOnline = U`. -/
def cps (U : Nat) : ℚ := (U * 5 : ℚ) / 60

/-- The per-tick carry increment `cps * (STEP_MS / 1000)`. -/
def tickInc (U : Nat) : ℚ := cps U * (STEP_MS / 1000)

/-- One timer tick: `carry += inc; emitCnt = ⌊carry⌋; carry -= emitCnt`.
Returns (new carry, number of characters emitted this tick). -/
def tickStep (U : Nat) (carry : ℚ) : ℚ × Nat :=
  let c := carry + tickInc U
  let emitCnt := ⌊c⌋
  (c - emitCnt, emitCnt.toNat)

/-- Carry and cumulative emitted count after `n` ticks at constant `U`. -/
def runTicks (U : Nat) : Nat → ℚ × Nat
  | 0 => (0, 0)
  | n + 1 =>
    let r := runTicks U n
    let t := tickStep U r.1
    (t.1, r.2 + t.2)

/-! ### Deterministic generator (src/server/core/monkey.ts)

`pure-rand` is an external library; its generator is modelled as an arbitrary
state type `σ` with a raw draw `stepRng : σ → Nat × σ`.  `prand.skipN(rng, n)`
advances the generator by `n` raw draws; `prand.uniformIntDistribution(0, 25,
rng)` is modelled as consuming exactly one raw draw. -/

/-- Embeds `prand.skipN`: advance the generator `n` draws. -/
def skipN {σ : Type} (stepRng : σ → Nat × σ) : σ → Nat → σ
  | s, 0 => s
  | s, n + 1 => skipN stepRng (stepRng s).2 n

/-- Embeds `prand.uniformIntDistribution(0, 25, rng)`: one raw draw mapped onto
`[0, 25]`. -/
def uniformInt26 {σ : Type} (stepRng : σ → Nat × σ) (s : σ) : Nat × σ :=
  ((stepRng s).1 % 26, (stepRng s).2)

/-- The Monkey constructor: fast-forward the fixed-seed rng to
`startPosition` with `skipN`. -/
def monkeyInit {σ : Type} (stepRng : σ → Nat × σ) (seed : σ)
    (startPosition : Nat) : σ :=
  skipN stepRng seed startPosition

/-- Embeds `Monkey.next()`: draw a letter, emit `'a' + letter`, advance the rng. -/
def monkeyNext {σ : Type} (stepRng : σ → Nat × σ) (s : σ) : Char × σ :=
  let d := uniformInt26 stepRng s
  (Char.ofNat (97 + d.1), d.2)

/-- The character emitted by the `k`-th `next()` call from rng state `s`. -/
def emitFrom {σ : Type} (stepRng : σ → Nat × σ) (s : σ) : Nat → Char
  | 0 => (monkeyNext stepRng s).1
  | k + 1 => emitFrom stepRng (monkeyNext stepRng s).2 k

/-! ### Store invariants -/

/-- State of a MemoryChunkStore that has appended exactly the characters
of `l`. -/
def InvM (st : MemoryChunkStore) (l : List Char) : Prop :=
  st.cursor = l.length ∧
  st.hotId = l.length / CHUNK_SIZE ∧
  st.hot = l.drop (st.hotId * CHUNK_SIZE) ∧
  ∀ id, st.chunks id =
    if id < st.hotId then some ((l.drop (id * CHUNK_SIZE)).take CHUNK_SIZE)
    else none

/-- Joint state of a FirestoreChunkStore and its backend after the store,
created over an empty backend, has appended exactly the characters of `l`,
with cursor-flush timer ticks interleaved arbitrarily. -/
def InvF (st : FirestoreChunkStore) (be : Backend) (l : List Char) : Prop :=
  st.cursor = l.length ∧
  st.workingChunkId = l.length / CHUNK_SIZE ∧
  st.workingChunk = l.drop (st.workingChunkId * CHUNK_SIZE) ∧
  (∀ id, id < st.workingChunkId →
    be.chunks id = some ((l.drop (id * CHUNK_SIZE)).take CHUNK_SIZE)) ∧
  (∀ id, st.workingChunkId < id → be.chunks id = none) ∧
  (∀ e ∈ st.cache, e.1 < st.workingChunkId ∧
    e.2 = (l.drop (e.1 * CHUNK_SIZE)).take CHUNK_SIZE) ∧
  (st.cursorDirty = false →
    (be.cursorDoc = some st.cursor ∨ (be.cursorDoc = none ∧ st.cursor = 0)) ∧
    (be.chunks st.workingChunkId = some st.workingChunk ∨
      (st.workingChunk = [] ∧ be.chunks st.workingChunkId = none)))

/-! ## Concrete instances used to witness theorems with hypotheses -/

/-- A one-word dictionary, as in the spec's word-detection scenario. -/
def dictCat : List (List Char) := [['c', 'a', 't']]

/-- A concrete stream spelling "cat" then x's. -/
def streamCat : Nat → Char := fun i => ['c', 'a', 't'].getD i 'x'

/-- A concrete stream spelling "xcatx" repeatedly. -/
def streamXcatx : Nat → Char := fun i => ['x', 'c', 'a', 't', 'x'].getD (i % 5) 'x'

/-! # Theorems -/

/-! ## Generator determinism across restarts (claim C1) -/

theorem skipN_add {σ : Type} (stepRng : σ → Nat × σ) (s : σ) (a b : Nat) :
    skipN stepRng s (a + b) = skipN stepRng (skipN stepRng s a) b := by
  induction a generalizing s with
  | zero =>
    rw [Nat.zero_add]
    rfl
  | succ a ih =>
    have : a + 1 + b = (a + b) + 1 := by omega
    rw [this]
    show skipN stepRng (stepRng s).2 (a + b) = _
    rw [ih]
    rfl

theorem emitFrom_skipN {σ : Type} (stepRng : σ → Nat × σ) (s : σ) (j k : Nat) :
    emitFrom stepRng (skipN stepRng s j) k = emitFrom stepRng s (j + k) := by
  induction j generalizing s with
  | zero =>
    rw [Nat.zero_add]
    rfl
  | succ j ih =>
    show emitFrom stepRng (skipN stepRng (stepRng s).2 j) k = _
    rw [ih]
    have : j + 1 + k = (j + k) + 1 := by omega
    rw [this]
    rfl

/-- Claim C1: a Monkey constructed with startPosition = p fast-forwards its rng
with skipN, so the characters it emits at absolute positions p, p + 1, …
(its 0th, 1st, … emissions) equal those a fresh generator constructed with
startPosition = 0 emits at the same positions. -/
theorem monkey_restart_deterministic {σ : Type} (stepRng : σ → Nat × σ)
    (seed : σ) (p i : Nat) (hpi : p ≤ i) :
    emitFrom stepRng (monkeyInit stepRng seed p) (i - p)
      = emitFrom stepRng (monkeyInit stepRng seed 0) i := by
  unfold monkeyInit
  rw [emitFrom_skipN, Nat.add_sub_cancel' hpi]
  rfl

theorem monkey_restart_deterministic_witness :
    3 ≤ 5 ∧
      emitFrom (fun s => (s, s + 1)) (monkeyInit (fun s => (s, s + 1)) 0 3) 2
        = emitFrom (fun s => (s, s + 1)) (monkeyInit (fun s => (s, s + 1)) 0 0) 5 :=
  ⟨by omega, monkey_restart_deterministic (fun s => (s, s + 1)) 0 3 5 (by omega)⟩

/-! ## Tick-loop pacing (claim C9) -/

theorem tickInc_nonneg (U : Nat) : 0 ≤ tickInc U := by
  unfold tickInc cps STEP_MS
  positivity

theorem runTicks_closed (U : Nat) (n : Nat) :
    runTicks U n = (Int.fract ((n : ℚ) * tickInc U), (⌊(n : ℚ) * tickInc U⌋).toNat) := by
  induction n with
  | zero => simp [runTicks, Int.fract]
  | succ n ih =>
    have hQ : ((n + 1 : ℕ) : ℚ) = (n : ℚ) + 1 := by push_cast; ring
    have hnn : (0 : ℚ) ≤ (n : ℚ) * tickInc U := by
      have := tickInc_nonneg U
      positivity
    have hfloor_le : ⌊(n : ℚ) * tickInc U⌋ ≤ ⌊((n : ℚ) + 1) * tickInc U⌋ := by
      apply Int.floor_le_floor
      have := tickInc_nonneg U
      nlinarith
    have hfloor_nonneg : 0 ≤ ⌊(n : ℚ) * tickInc U⌋ := Int.floor_nonneg.mpr hnn
    have hc : Int.fract ((n : ℚ) * tickInc U) + tickInc U
        = ((n : ℚ) + 1) * tickInc U - (⌊(n : ℚ) * tickInc U⌋ : ℤ) := by
      rw [Int.fract]
      ring
    have hfl : ⌊Int.fract ((n : ℚ) * tickInc U) + tickInc U⌋
        = ⌊((n : ℚ) + 1) * tickInc U⌋ - ⌊(n : ℚ) * tickInc U⌋ := by
      rw [hc, Int.floor_sub_int]
    show (let r := runTicks U n; let t := tickStep U r.1; (t.1, r.2 + t.2)) = _
    simp only [runTicks, ih, tickStep, hQ, Prod.mk.injEq]
    refine ⟨?_, ?_⟩
    · rw [hfl, hc, Int.fract]
      push_cast
      ring
    · rw [hfl]
      omega


/-- Claim C9: each tick accumulates carry += cps × STEP_MS/1000 and emits
⌊carry⌋ characters; after n ticks at constant usersOnline = U the cumulative
emitted count is exactly ⌊n × cps × STEP_MS/1000⌋ — no drift — and over the
corresponding interval of Δt = n × STEP_MS/1000 seconds the broadcast count is
within 1 of Δt × U × 5 / 60. -/
theorem tick_loop_no_drift (U n : Nat) :
    (((runTicks U n).2 : ℤ) = ⌊(n : ℚ) * (cps U * (STEP_MS / 1000))⌋) ∧
    (((runTicks U n).2 : ℤ)
      = ⌊((n : ℚ) * STEP_MS / 1000) * ((U : ℚ) * 5) / 60⌋) ∧
    |((runTicks U n).2 : ℚ) - ((n : ℚ) * STEP_MS / 1000) * ((U : ℚ) * 5) / 60| ≤ 1 := by
  have hrun := runTicks_closed U n
  have hval : ((n : ℚ) * STEP_MS / 1000) * ((U : ℚ) * 5) / 60
      = (n : ℚ) * tickInc U := by
    unfold tickInc cps
    ring
  have hnn : (0 : ℚ) ≤ (n : ℚ) * tickInc U := by
    have := tickInc_nonneg U
    positivity
  have hfloor_nonneg : 0 ≤ ⌊(n : ℚ) * tickInc U⌋ := Int.floor_nonneg.mpr hnn
  have hsnd : ((runTicks U n).2 : ℤ) = ⌊(n : ℚ) * tickInc U⌋ := by
    rw [hrun]
    show ((⌊(n : ℚ) * tickInc U⌋.toNat : ℕ) : ℤ) = ⌊(n : ℚ) * tickInc U⌋
    omega
  refine ⟨?_, ?_, ?_⟩
  · rw [hsnd]
    rfl
  · rw [hsnd, hval]
  · rw [hval]
    have hcast : ((runTicks U n).2 : ℚ) = ((⌊(n : ℚ) * tickInc U⌋ : ℤ) : ℚ) := by
      exact_mod_cast hsnd
    rw [hcast]
    rw [abs_le]
    constructor
    · have := Int.sub_one_lt_floor ((n : ℚ) * tickInc U)
      push_cast at this ⊢
      linarith
    · have := Int.floor_le ((n : ℚ) * tickInc U)
      push_cast at this ⊢
      linarith

/-! ## GET /v1/chars validation (claim C8) -/

/-- Claim C8: /v1/chars answers 400 exactly when start or len is not finite,
start < 0, len ≤ 0, or len > 16 × 8192 = 131072; every accepted request is
answered with the text of readSlice(start, len). -/
theorem chars_route_validation (st : FirestoreChunkStore) (be : Backend)
    (start len : JSNum) :
    (charsRoute st be start len = CharsResponse.badRequest ↔
      (start.isFinite = false ∨ len.isFinite = false ∨ start.val < 0 ∨
        len.val ≤ 0 ∨ (131072 : Int) < len.val)) ∧
    (∀ body, charsRoute st be start len = CharsResponse.ok body →
      body = st.readSlice be start.val.toNat len.val.toNat) := by
  unfold charsRoute
  have h16 : (CHUNK_SIZE : Int) * 16 = 131072 := by decide
  rw [h16]
  by_cases hc : (!start.isFinite || !len.isFinite || decide (start.val < 0)
      || decide (len.val ≤ 0) || decide ((131072 : Int) < len.val)) = true
  · rw [if_pos hc]
    simp only [Bool.or_eq_true, Bool.not_eq_true', decide_eq_true_eq] at hc
    constructor
    · constructor
      · intro _
        rcases hc with ((((h | h) | h) | h) | h)
        · exact Or.inl h
        · exact Or.inr (Or.inl h)
        · exact Or.inr (Or.inr (Or.inl h))
        · exact Or.inr (Or.inr (Or.inr (Or.inl h)))
        · exact Or.inr (Or.inr (Or.inr (Or.inr h)))
      · intro _
        rfl
    · intro body hbody
      exact absurd hbody (by simp)
  · rw [if_neg hc]
    simp only [Bool.or_eq_true, Bool.not_eq_true', decide_eq_true_eq] at hc
    push_neg at hc
    obtain ⟨⟨⟨⟨hf1, hf2⟩, hs⟩, hl⟩, hb⟩ := hc
    constructor
    · constructor
      · intro h
        exact absurd h (by simp)
      · intro h
        rcases h with h | h | h | h | h
        · exact absurd h hf1
        · exact absurd h hf2
        · exact absurd h (by omega)
        · exact absurd h (by omega)
        · exact absurd h (by omega)
    · intro body hbody
      exact (CharsResponse.ok.inj hbody).symm

theorem chars_route_validation_witness :
    charsRoute (FirestoreChunkStore.create Backend.empty) Backend.empty
        (JSNum.fin 0) (JSNum.fin 131073) = CharsResponse.badRequest ∧
    ([] : List Char) = (FirestoreChunkStore.create Backend.empty).readSlice
        Backend.empty (JSNum.fin 0).val.toNat (JSNum.fin 131072).val.toNat :=
  ⟨(chars_route_validation (FirestoreChunkStore.create Backend.empty)
      Backend.empty (JSNum.fin 0) (JSNum.fin 131073)).1.mpr (by decide),
   (chars_route_validation (FirestoreChunkStore.create Backend.empty)
      Backend.empty (JSNum.fin 0) (JSNum.fin 131072)).2 [] (by decide)⟩

/-! ## Startup scanner start position (claim C4) -/

/-- Claim C4 is false as stated: the scanner starts 20 characters before the
high-water mark, not MAX_LEN - 1 = 11.  At H = 31 the code starts at 11 while
the claim says max(0, 31 - 11) = 20. -/
theorem scan_start_position_counterexample :
    scanStartPosition 31 = 11 ∧
      scanStartPosition 31 ≠ max 0 (31 - (MAX_LEN - 1)) := by
  constructor <;> decide

/-- Claim C4 amended: the scanner begins reading at max(0, H - 20), which is
at most the claimed max(0, H - (MAX_LEN - 1)) — so it still has at least
MAX_LEN - 1 characters of left context whenever the stream offers them — and
wastes at most 20 characters of re-scanning. -/
theorem scan_start_position_amended (H : Nat) :
    scanStartPosition H ≤ max 0 (H - (MAX_LEN - 1)) ∧
    scanStartPosition H + (MAX_LEN - 1) ≤ max (MAX_LEN - 1) H ∧
    H - scanStartPosition H ≤ 20 := by
  unfold scanStartPosition MAX_LEN
  omega

/-! ## Word detector lemmas -/

theorem lastN_length (n : Nat) (l : List Char) :
    (lastN n l).length = min n l.length := by
  unfold lastN
  rw [List.length_drop]
  omega

theorem lastN_of_le {n : Nat} {l : List Char} (h : l.length ≤ n) :
    lastN n l = l := by
  unfold lastN
  have h0 : l.length - n = 0 := by omega
  rw [h0, List.drop_zero]

theorem lastN_lastN {n m : Nat} (l : List Char) (h : n ≤ m) :
    lastN n (lastN m l) = lastN n l := by
  unfold lastN
  rw [List.length_drop, List.drop_drop]
  congr 1
  omega

theorem pushWindow_lastN (l : List Char) (ch : Char) :
    pushWindow (lastN MAX_LEN l) ch = lastN MAX_LEN (l ++ [ch]) := by
  have hlen : (lastN MAX_LEN l).length = min MAX_LEN l.length := lastN_length _ _
  simp only [pushWindow]
  by_cases hl : l.length ≤ MAX_LEN - 1
  · have h1 : ¬ MAX_LEN < (lastN MAX_LEN l ++ [ch]).length := by
      rw [List.length_append, hlen]
      unfold MAX_LEN at *
      simp
      omega
    rw [if_neg h1]
    rw [lastN_of_le (by unfold MAX_LEN at *; omega : l.length ≤ MAX_LEN)]
    rw [lastN_of_le (by rw [List.length_append]; unfold MAX_LEN at *; simp; omega)]
  · have h2 : MAX_LEN < (lastN MAX_LEN l ++ [ch]).length := by
      rw [List.length_append, hlen]
      unfold MAX_LEN at *
      simp
      omega
    rw [if_pos h2]
    have hd : lastN MAX_LEN l ++ [ch] = (l ++ [ch]).drop (l.length - MAX_LEN) := by
      unfold lastN
      rw [List.drop_append_of_le_length (by omega)]
    rw [hd, List.drop_drop]
    unfold lastN
    rw [List.length_append]
    congr 1
    unfold MAX_LEN at *
    simp
    omega

theorem scanDown_some_spec (dict : List (List Char)) (w : List Char) (pos : Nat) :
    ∀ n h, scanDown dict w pos n = some h →
      MIN_LEN ≤ h.len ∧ h.len ≤ n ∧ h.start = (pos : Int) - h.len + 1 ∧
      h.word = lastN h.len w ∧ h.word ∈ dict ∧
      ∀ m, h.len < m → m ≤ n → lastN m w ∉ dict := by
  intro n
  induction n with
  | zero =>
    intro h hs
    exact absurd hs (by simp [scanDown])
  | succ n ih =>
    intro h hs
    unfold scanDown at hs
    by_cases h1 : n + 1 < MIN_LEN
    · rw [if_pos h1] at hs
      exact absurd hs (by simp)
    · rw [if_neg h1] at hs
      by_cases h2 : lastN (n + 1) w ∈ dict
      · rw [if_pos h2] at hs
        have hh := Option.some.inj hs
        subst hh
        refine ⟨?_, ?_, rfl, rfl, h2, ?_⟩
        · show MIN_LEN ≤ n + 1
          omega
        · show n + 1 ≤ n + 1
          omega
        · intro m hm1 hm2
          have hm1' : n + 1 < m := hm1
          exact absurd hm2 (by omega)
      · rw [if_neg h2] at hs
        obtain ⟨ha, hb, hc, hd, he, hf⟩ := ih h hs
        refine ⟨ha, by omega, hc, hd, he, ?_⟩
        intro m hm1 hm2
        by_cases hm : m ≤ n
        · exact hf m hm1 hm
        · have : m = n + 1 := by omega
          subst this
          exact h2

theorem scanDown_none_spec (dict : List (List Char)) (w : List Char) (pos : Nat) :
    ∀ n, scanDown dict w pos n = none →
      ∀ m, MIN_LEN ≤ m → m ≤ n → lastN m w ∉ dict := by
  intro n
  induction n with
  | zero =>
    intro _ m hm1 hm2
    unfold MIN_LEN at hm1
    omega
  | succ n ih =>
    intro hs m hm1 hm2
    unfold scanDown at hs
    by_cases h1 : n + 1 < MIN_LEN
    · omega
    · rw [if_neg h1] at hs
      by_cases h2 : lastN (n + 1) w ∈ dict
      · rw [if_pos h2] at hs
        exact absurd hs (by simp)
      · rw [if_neg h2] at hs
        by_cases hm : m ≤ n
        · exact ih hs m hm1 hm
        · have : m = n + 1 := by omega
          subst this
          exact h2

/-- Claim C2: push appends the character to the sliding window (dropping the
leading character past MAX_LEN: the updated window is the last MAX_LEN of
w ++ [ch]), emits at most one hit — the second component is an Option — and an
emitted hit is {start: pos - n + 1, len: n, word} where n is the largest value
in [MIN_LEN, MAX_LEN], bounded by the window length, such that the window's
last n characters form a dictionary entry; when no hit is emitted no such n
exists. -/
theorem push_longest_match (dict : List (List Char)) (w : List Char) (ch : Char)
    (pos : Nat) (hw : w.length ≤ MAX_LEN) :
    (push dict w ch pos).1 = lastN MAX_LEN (w ++ [ch]) ∧
    (∀ h, (push dict w ch pos).2 = some h →
      MIN_LEN ≤ h.len ∧ h.len ≤ min MAX_LEN (push dict w ch pos).1.length ∧
      h.start = (pos : Int) - h.len + 1 ∧
      h.word = lastN h.len (push dict w ch pos).1 ∧ h.word ∈ dict ∧
      ∀ m, h.len < m → m ≤ min MAX_LEN (push dict w ch pos).1.length →
        lastN m (push dict w ch pos).1 ∉ dict) ∧
    ((push dict w ch pos).2 = none →
      ∀ m, MIN_LEN ≤ m → m ≤ min MAX_LEN (push dict w ch pos).1.length →
        lastN m (push dict w ch pos).1 ∉ dict) := by
  have hfst : (push dict w ch pos).1 = lastN MAX_LEN (w ++ [ch]) := by
    show pushWindow w ch = _
    conv_lhs => rw [← lastN_of_le hw]
    rw [pushWindow_lastN]
  have hsnd : (push dict w ch pos).2
      = scanDown dict (push dict w ch pos).1 pos
          (min MAX_LEN (push dict w ch pos).1.length) := rfl
  refine ⟨hfst, ?_, ?_⟩
  · intro h hs
    rw [hsnd] at hs
    obtain ⟨ha, hb, hc, hd, he, hf⟩ :=
      scanDown_some_spec dict (push dict w ch pos).1 pos _ h hs
    exact ⟨ha, hb, hc, hd, he, hf⟩
  · intro hs
    rw [hsnd] at hs
    exact scanDown_none_spec dict (push dict w ch pos).1 pos _ hs

theorem push_longest_match_witness :
    (push dictCat ['x', 'c', 'a'] 't' 3).1
      = lastN MAX_LEN (['x', 'c', 'a'] ++ ['t']) ∧
    MIN_LEN ≤ (3 : Nat) ∧ (3 : Nat) ≤ min MAX_LEN (push dictCat ['x', 'c', 'a'] 't' 3).1.length ∧
    ((1 : Int) = (3 : Nat) - ((3 : Nat) : Int) + 1) ∧
    (['c', 'a', 't'] : List Char) = lastN 3 (push dictCat ['x', 'c', 'a'] 't' 3).1 ∧
    (['c', 'a', 't'] : List Char) ∈ dictCat ∧
    (∀ m, 3 < m → m ≤ min MAX_LEN (push dictCat ['x', 'c', 'a'] 't' 3).1.length →
      lastN m (push dictCat ['x', 'c', 'a'] 't' 3).1 ∉ dictCat) :=
  ⟨(push_longest_match dictCat ['x', 'c', 'a'] 't' 3 (by decide)).1,
   (push_longest_match dictCat ['x', 'c', 'a'] 't' 3 (by decide)).2.1
     ⟨1, 3, ['c', 'a', 't']⟩ (by decide)⟩

/-! ## Implicit hit invariants (claim C10) -/

/-- Claim C10: whatever the dictionary file contains, an emitted hit has
MIN_LEN ≤ len ≤ MAX_LEN, word.length = len, and word equals the last len
characters pushed (the window being the last MAX_LEN of the push history);
the matched word is an entry of the file of length ≥ 3, and entries longer
than MAX_LEN = 12 can never be matched. -/
theorem push_hit_invariants (file : List (List Char)) (hist : List Char)
    (ch : Char) (pos : Nat) (h : WordHit)
    (hemit : (push (loadDict file) (lastN MAX_LEN hist) ch pos).2 = some h) :
    MIN_LEN ≤ h.len ∧ h.len ≤ MAX_LEN ∧ h.word.length = h.len ∧
    h.word = lastN h.len (hist ++ [ch]) ∧ h.word ∈ file ∧
    MIN_LEN ≤ h.word.length ∧ h.word.length ≤ MAX_LEN := by
  have hw' : (push (loadDict file) (lastN MAX_LEN hist) ch pos).1
      = lastN MAX_LEN (hist ++ [ch]) := by
    show pushWindow (lastN MAX_LEN hist) ch = _
    exact pushWindow_lastN hist ch
  have hs : (push (loadDict file) (lastN MAX_LEN hist) ch pos).2
      = scanDown (loadDict file)
          (push (loadDict file) (lastN MAX_LEN hist) ch pos).1 pos
          (min MAX_LEN (push (loadDict file) (lastN MAX_LEN hist) ch pos).1.length)
      := rfl
  rw [hs] at hemit
  obtain ⟨ha, hb, _, hd, he, _⟩ :=
    scanDown_some_spec _ _ _ _ h hemit
  rw [hw'] at hd hb
  have hlen12 : h.len ≤ MAX_LEN := by omega
  have hwin_len : (lastN MAX_LEN (hist ++ [ch])).length
      = min MAX_LEN (hist ++ [ch]).length := lastN_length _ _
  have hword : h.word = lastN h.len (hist ++ [ch]) := by
    rw [hd, lastN_lastN _ hlen12]
  have hwlen : h.word.length = h.len := by
    rw [hword, lastN_length]
    have : h.len ≤ (hist ++ [ch]).length := by
      have := lastN_length MAX_LEN (hist ++ [ch])
      omega
    omega
  have hfile : h.word ∈ file := by
    have := List.mem_filter.mp he
    exact this.1
  refine ⟨ha, hlen12, hwlen, hword, hfile, ?_, ?_⟩ <;> omega

theorem push_hit_invariants_witness :
    MIN_LEN ≤ (3 : Nat) ∧ (3 : Nat) ≤ MAX_LEN ∧
    (['c', 'a', 't'] : List Char).length = 3 ∧
    (['c', 'a', 't'] : List Char) = lastN 3 (['x', 'c', 'a'] ++ ['t']) ∧
    (['c', 'a', 't'] : List Char) ∈ dictCat ∧
    MIN_LEN ≤ (['c', 'a', 't'] : List Char).length ∧
    (['c', 'a', 't'] : List Char).length ≤ MAX_LEN :=
  push_hit_invariants dictCat ['x', 'c', 'a'] 't' 3 ⟨1, 3, ['c', 'a', 't']⟩
    (by decide)

/-! ## Chunk store lemmas -/

theorem CHUNK_SIZE_eq : CHUNK_SIZE = 8192 := rfl

/-- Concatenating consecutive chunks of a store whose chunk `id` holds the
characters `[id*C, (id+1)*C)` of the global text yields a contiguous segment. -/
theorem chunks_flatten (chunkAt : Nat → List Char) (l : List Char)
    (hch : ∀ id, chunkAt id = (l.drop (id * CHUNK_SIZE)).take CHUNK_SIZE) :
    ∀ k f, ((List.range' f k).map chunkAt).flatten
      = (l.drop (f * CHUNK_SIZE)).take (k * CHUNK_SIZE) := by
  intro k
  induction k with
  | zero =>
    intro f
    simp
  | succ k ih =>
    intro f
    rw [List.range'_succ, List.map_cons, List.flatten_cons, hch f, ih (f + 1)]
    rw [show (f + 1) * CHUNK_SIZE = f * CHUNK_SIZE + CHUNK_SIZE from by ring,
      show (k + 1) * CHUNK_SIZE = CHUNK_SIZE + k * CHUNK_SIZE from by ring]
    rw [List.take_add, List.drop_drop]

/-- On a store whose chunks hold the segments of a global text `l`,
`readSlice(start, len)` returns exactly the characters `[start, start + len)`
of `l` (short when `l` ends sooner). -/
theorem sliceAlg_eq (chunkAt : Nat → List Char) (l : List Char)
    (hch : ∀ id, chunkAt id = (l.drop (id * CHUNK_SIZE)).take CHUNK_SIZE)
    (start len : Nat) :
    sliceAlg chunkAt start len = (l.drop start).take len := by
  by_cases h0 : len = 0
  · subst h0
    simp [sliceAlg]
  · unfold sliceAlg
    rw [if_neg h0]
    simp only
    rw [chunks_flatten chunkAt l hch]
    rw [List.drop_take, List.drop_drop, List.take_take]
    have hfl : start / CHUNK_SIZE * CHUNK_SIZE
        + (start - start / CHUNK_SIZE * CHUNK_SIZE) = start := by
      have := Nat.div_mul_le_self start CHUNK_SIZE
      omega
    rw [hfl]
    congr 1
    simp only [CHUNK_SIZE_eq]
    omega

/-- A full segment of the text is unchanged by appending a character. -/
theorem seg_append_stable {l : List Char} {ch : Char} {id : Nat}
    (h : (id + 1) * CHUNK_SIZE ≤ l.length) :
    ((l ++ [ch]).drop (id * CHUNK_SIZE)).take CHUNK_SIZE
      = (l.drop (id * CHUNK_SIZE)).take CHUNK_SIZE := by
  rw [List.drop_append_of_le_length (by simp only [CHUNK_SIZE_eq] at *; omega)]
  rw [List.take_append_of_le_length
    (by rw [List.length_drop]; simp only [CHUNK_SIZE_eq] at *; omega)]

theorem invM_empty : InvM MemoryChunkStore.empty [] := by
  refine ⟨rfl, rfl, rfl, ?_⟩
  intro id
  simp [MemoryChunkStore.empty]

theorem invM_append {st : MemoryChunkStore} {l : List Char} {ch : Char}
    (h : InvM st l) : InvM (st.append ch).1 (l ++ [ch]) := by
  obtain ⟨h1, h2, h3, h4⟩ := h
  have hhotlen : st.hot.length = l.length - st.hotId * CHUNK_SIZE := by
    rw [h3, List.length_drop]
  by_cases hfull : (st.hot ++ [ch]).length = CHUNK_SIZE
  · have happ : (st.append ch).1
        = ⟨fun id => if id = st.hotId then some (st.hot ++ [ch]) else st.chunks id,
            [], st.hotId + 1, st.cursor + 1⟩ := by
      simp only [MemoryChunkStore.append]
      rw [if_pos hfull]
    rw [happ]
    rw [List.length_append] at hfull
    refine ⟨?_, ?_, ?_, ?_⟩
    · show st.cursor + 1 = (l ++ [ch]).length
      rw [List.length_append]
      simp only [List.length_cons, List.length_nil]
      omega
    · show st.hotId + 1 = (l ++ [ch]).length / CHUNK_SIZE
      rw [List.length_append]
      simp only [List.length_cons, List.length_nil, CHUNK_SIZE_eq] at *
      omega
    · show ([] : List Char) = (l ++ [ch]).drop ((st.hotId + 1) * CHUNK_SIZE)
      rw [List.drop_of_length_le]
      rw [List.length_append]
      simp only [List.length_cons, List.length_nil, CHUNK_SIZE_eq] at *
      omega
    · intro id
      show (if id = st.hotId then some (st.hot ++ [ch]) else st.chunks id)
          = if id < st.hotId + 1
            then some (((l ++ [ch]).drop (id * CHUNK_SIZE)).take CHUNK_SIZE)
            else none
      by_cases hid : id = st.hotId
      · subst hid
        rw [if_pos rfl, if_pos (by omega)]
        have hb1 : st.hotId * CHUNK_SIZE ≤ l.length := by
          have h2' := h2
          simp only [CHUNK_SIZE_eq] at h2' ⊢
          omega
        have hdr : (l ++ [ch]).drop (st.hotId * CHUNK_SIZE)
            = l.drop (st.hotId * CHUNK_SIZE) ++ [ch] :=
          List.drop_append_of_le_length hb1
        rw [hdr, ← h3]
        have htk : (st.hot ++ [ch]).length ≤ CHUNK_SIZE := by
          rw [List.length_append]
          simp only [List.length_cons, List.length_nil, CHUNK_SIZE_eq] at *
          omega
        rw [List.take_of_length_le htk]
      · rw [if_neg hid, h4 id]
        by_cases hlt : id < st.hotId
        · rw [if_pos hlt, if_pos (by omega)]
          rw [seg_append_stable (by simp only [CHUNK_SIZE_eq] at *; omega)]
        · rw [if_neg hlt, if_neg (by omega)]
  · have happ : (st.append ch).1
        = ⟨st.chunks, st.hot ++ [ch], st.hotId, st.cursor + 1⟩ := by
      simp only [MemoryChunkStore.append]
      rw [if_neg hfull]
    rw [happ]
    rw [List.length_append] at hfull
    simp only [List.length_cons, List.length_nil] at hfull
    refine ⟨?_, ?_, ?_, ?_⟩
    · show st.cursor + 1 = (l ++ [ch]).length
      rw [List.length_append]
      simp only [List.length_cons, List.length_nil]
      omega
    · show st.hotId = (l ++ [ch]).length / CHUNK_SIZE
      rw [List.length_append]
      simp only [List.length_cons, List.length_nil, CHUNK_SIZE_eq] at *
      omega
    · show st.hot ++ [ch] = (l ++ [ch]).drop (st.hotId * CHUNK_SIZE)
      rw [List.drop_append_of_le_length (by simp only [CHUNK_SIZE_eq] at *; omega)]
      rw [h3]
    · intro id
      show st.chunks id
          = if id < st.hotId
            then some (((l ++ [ch]).drop (id * CHUNK_SIZE)).take CHUNK_SIZE)
            else none
      rw [h4 id]
      by_cases hlt : id < st.hotId
      · rw [if_pos hlt, if_pos hlt]
        rw [seg_append_stable (by simp only [CHUNK_SIZE_eq] at *; omega)]
      · rw [if_neg hlt, if_neg hlt]

theorem invM_ofList (l : List Char) : InvM (MemoryChunkStore.ofList l) l := by
  induction l using List.reverseRecOn with
  | nil => exact invM_empty
  | append_singleton l ch ih =>
    have hof : MemoryChunkStore.ofList (l ++ [ch])
        = ((MemoryChunkStore.ofList l).append ch).1 := by
      unfold MemoryChunkStore.ofList
      rw [List.foldl_append]
      rfl
    rw [hof]
    exact invM_append ih

theorem readChunk_ofList (l : List Char) (id : Nat) :
    (MemoryChunkStore.ofList l).readChunk id
      = (l.drop (id * CHUNK_SIZE)).take CHUNK_SIZE := by
  obtain ⟨h1, h2, h3, h4⟩ := invM_ofList l
  unfold MemoryChunkStore.readChunk
  by_cases hid : id = (MemoryChunkStore.ofList l).hotId
  · rw [if_pos hid, h3, ← hid]
    refine (List.take_of_length_le ?_).symm
    rw [List.length_drop]
    have hid' : id = l.length / CHUNK_SIZE := hid.trans h2
    simp only [CHUNK_SIZE_eq] at hid' ⊢
    omega
  · rw [if_neg hid, h4 id]
    by_cases hlt : id < (MemoryChunkStore.ofList l).hotId
    · rw [if_pos hlt]
      rfl
    · rw [if_neg hlt]
      have hge : l.length ≤ id * CHUNK_SIZE := by
        rw [h2] at hid hlt
        simp only [CHUNK_SIZE_eq] at *
        omega
      rw [List.drop_of_length_le hge]
      rfl

theorem lruSet_mem {cache : List (Nat × List Char)} {id : Nat} {text : List Char}
    {e : Nat × List Char} (h : e ∈ lruSet cache id text) :
    e ∈ cache ∨ e = (id, text) := by
  simp only [lruSet] at h
  by_cases hc : 32 < ((cache.filter (fun e => decide (e.1 ≠ id))) ++ [(id, text)]).length
  · rw [if_pos hc] at h
    have h2 := List.mem_of_mem_drop h
    rcases List.mem_append.mp h2 with h3 | h3
    · exact Or.inl (List.mem_of_mem_filter h3)
    · simp only [List.mem_singleton] at h3
      exact Or.inr h3
  · rw [if_neg hc] at h
    rcases List.mem_append.mp h with h3 | h3
    · exact Or.inl (List.mem_of_mem_filter h3)
    · simp only [List.mem_singleton] at h3
      exact Or.inr h3

theorem lruGet_some {cache : List (Nat × List Char)} {id : Nat} {t : List Char}
    (h : lruGet cache id = some t) : (id, t) ∈ cache := by
  unfold lruGet at h
  cases hf : cache.find? (fun e => decide (e.1 = id)) with
  | none =>
    rw [hf] at h
    exact absurd h (by simp)
  | some e =>
    rw [hf] at h
    simp only [Option.map_some', Option.some.injEq] at h
    have hm := List.mem_of_find?_eq_some hf
    have hp := List.find?_some hf
    simp only [decide_eq_true_eq] at hp
    have he : e = (id, t) := by
      obtain ⟨e1, e2⟩ := e
      simp only at hp h
      subst hp
      subst h
      rfl
    rw [← he]
    exact hm

theorem invF_init : InvF (FirestoreChunkStore.create Backend.empty) Backend.empty [] := by
  have hcr : FirestoreChunkStore.create Backend.empty
      = ⟨[], 0, 0, false, []⟩ := rfl
  rw [hcr]
  refine ⟨rfl, rfl, rfl, ?_, ?_, ?_, ?_⟩
  · intro id hid
    have hid' : id < 0 := hid
    exact absurd hid' (by omega)
  · intro id _
    rfl
  · intro e he
    exact absurd he (by simp)
  · intro _
    exact ⟨Or.inr ⟨rfl, rfl⟩, Or.inr ⟨rfl, rfl⟩⟩

theorem invF_tick {st : FirestoreChunkStore} {be : Backend} {l : List Char}
    (h : InvF st be l) :
    InvF (st.flushCursor be).1 (st.flushCursor be).2 l := by
  obtain ⟨h1, h2, h3, h4, h5, h6, h7⟩ := h
  unfold FirestoreChunkStore.flushCursor
  by_cases hd : st.cursorDirty = true
  · rw [if_pos hd]
    refine ⟨h1, h2, h3, ?_, ?_, h6, ?_⟩
    · intro id hid
      have hid' : id < st.workingChunkId := hid
      show (if id = st.workingChunkId then some st.workingChunk else be.chunks id) = _
      rw [if_neg (by omega), h4 id hid']
    · intro id hid
      have hid' : st.workingChunkId < id := hid
      show (if id = st.workingChunkId then some st.workingChunk else be.chunks id) = none
      rw [if_neg (by omega), h5 id hid']
    · intro _
      constructor
      · exact Or.inl rfl
      · left
        show (if st.workingChunkId = st.workingChunkId
            then some st.workingChunk else be.chunks st.workingChunkId)
          = some st.workingChunk
        rw [if_pos rfl]
  · rw [if_neg hd]
    exact ⟨h1, h2, h3, h4, h5, h6, h7⟩

theorem invF_append {st : FirestoreChunkStore} {be : Backend} {l : List Char}
    {ch : Char} (h : InvF st be l) :
    InvF (st.append be ch).1 (st.append be ch).2.1 (l ++ [ch]) := by
  obtain ⟨h1, h2, h3, h4, h5, h6, h7⟩ := h
  have hwclen : st.workingChunk.length = l.length - st.workingChunkId * CHUNK_SIZE := by
    rw [h3, List.length_drop]
  have hwid_le : st.workingChunkId * CHUNK_SIZE ≤ l.length := by
    have h2' := h2
    simp only [CHUNK_SIZE_eq] at h2' ⊢
    omega
  by_cases hfull : (st.workingChunk ++ [ch]).length = CHUNK_SIZE
  · have happ1 : (st.append be ch).1
        = ⟨[], st.workingChunkId + 1, st.cursor + 1, false,
            lruSet st.cache st.workingChunkId (st.workingChunk ++ [ch])⟩ := by
      simp only [FirestoreChunkStore.append]
      rw [if_pos hfull]
    have happ2 : (st.append be ch).2.1
        = ⟨fun i => if i = st.workingChunkId then some (st.workingChunk ++ [ch])
            else be.chunks i, some (st.cursor + 1)⟩ := by
      simp only [FirestoreChunkStore.append]
      rw [if_pos hfull]
    rw [happ1, happ2]
    rw [List.length_append] at hfull
    simp only [List.length_cons, List.length_nil] at hfull
    have hwcfull : (l ++ [ch]).drop (st.workingChunkId * CHUNK_SIZE)
        = st.workingChunk ++ [ch] := by
      rw [List.drop_append_of_le_length hwid_le, ← h3]
    have htk : (st.workingChunk ++ [ch]).length ≤ CHUNK_SIZE := by
      rw [List.length_append]
      simp only [List.length_cons, List.length_nil, CHUNK_SIZE_eq] at *
      omega
    refine ⟨?_, ?_, ?_, ?_, ?_, ?_, ?_⟩
    · show st.cursor + 1 = (l ++ [ch]).length
      rw [List.length_append]
      simp only [List.length_cons, List.length_nil]
      omega
    · show st.workingChunkId + 1 = (l ++ [ch]).length / CHUNK_SIZE
      rw [List.length_append]
      simp only [List.length_cons, List.length_nil, CHUNK_SIZE_eq] at *
      omega
    · show ([] : List Char) = (l ++ [ch]).drop ((st.workingChunkId + 1) * CHUNK_SIZE)
      rw [List.drop_of_length_le]
      rw [List.length_append]
      simp only [List.length_cons, List.length_nil, CHUNK_SIZE_eq] at *
      omega
    · intro id hid
      have hid' : id < st.workingChunkId + 1 := hid
      show (if id = st.workingChunkId then some (st.workingChunk ++ [ch]) else be.chunks id)
          = some (((l ++ [ch]).drop (id * CHUNK_SIZE)).take CHUNK_SIZE)
      by_cases he : id = st.workingChunkId
      · subst he
        rw [if_pos rfl, hwcfull, List.take_of_length_le htk]
      · have hlt : id < st.workingChunkId := by omega
        rw [if_neg he, h4 id hlt]
        have hseg : (id + 1) * CHUNK_SIZE ≤ l.length := by
          have h2' := h2
          simp only [CHUNK_SIZE_eq] at h2' ⊢
          omega
        rw [seg_append_stable hseg]
    · intro id hid
      have hid' : st.workingChunkId + 1 < id := hid
      show (if id = st.workingChunkId then some (st.workingChunk ++ [ch]) else be.chunks id)
          = none
      rw [if_neg (by omega)]
      exact h5 id (by omega)
    · intro e he
      have he' : e ∈ lruSet st.cache st.workingChunkId (st.workingChunk ++ [ch]) := he
      rcases lruSet_mem he' with hin | heq
      · obtain ⟨ha, hb⟩ := h6 e hin
        have hseg : (e.1 + 1) * CHUNK_SIZE ≤ l.length := by
          have h2' := h2
          simp only [CHUNK_SIZE_eq] at h2' ⊢
          omega
        refine ⟨?_, ?_⟩
        · show e.1 < st.workingChunkId + 1
          omega
        · rw [hb, seg_append_stable hseg]
      · subst heq
        refine ⟨?_, ?_⟩
        · show st.workingChunkId < st.workingChunkId + 1
          omega
        · show st.workingChunk ++ [ch]
              = ((l ++ [ch]).drop (st.workingChunkId * CHUNK_SIZE)).take CHUNK_SIZE
          rw [hwcfull, List.take_of_length_le htk]
    · intro _
      constructor
      · exact Or.inl rfl
      · right
        constructor
        · rfl
        · show (if st.workingChunkId + 1 = st.workingChunkId
              then some (st.workingChunk ++ [ch])
              else be.chunks (st.workingChunkId + 1)) = none
          rw [if_neg (by omega)]
          exact h5 _ (by omega)
  · have happ1 : (st.append be ch).1
        = ⟨st.workingChunk ++ [ch], st.workingChunkId, st.cursor + 1, true, st.cache⟩ := by
      simp only [FirestoreChunkStore.append]
      rw [if_neg hfull]
    have happ2 : (st.append be ch).2.1 = be := by
      simp only [FirestoreChunkStore.append]
      rw [if_neg hfull]
    rw [happ1, happ2]
    rw [List.length_append] at hfull
    simp only [List.length_cons, List.length_nil] at hfull
    refine ⟨?_, ?_, ?_, ?_, ?_, ?_, ?_⟩
    · show st.cursor + 1 = (l ++ [ch]).length
      rw [List.length_append]
      simp only [List.length_cons, List.length_nil]
      omega
    · show st.workingChunkId = (l ++ [ch]).length / CHUNK_SIZE
      rw [List.length_append]
      simp only [List.length_cons, List.length_nil, CHUNK_SIZE_eq] at *
      omega
    · show st.workingChunk ++ [ch] = (l ++ [ch]).drop (st.workingChunkId * CHUNK_SIZE)
      rw [List.drop_append_of_le_length hwid_le, ← h3]
    · intro id hid
      have hid' : id < st.workingChunkId := hid
      show be.chunks id = some (((l ++ [ch]).drop (id * CHUNK_SIZE)).take CHUNK_SIZE)
      rw [h4 id hid']
      have hseg : (id + 1) * CHUNK_SIZE ≤ l.length := by
        have h2' := h2
        simp only [CHUNK_SIZE_eq] at h2' ⊢
        omega
      rw [seg_append_stable hseg]
    · intro id hid
      exact h5 id hid
    · intro e he
      obtain ⟨ha, hb⟩ := h6 e he
      have hseg : (e.1 + 1) * CHUNK_SIZE ≤ l.length := by
        have h2' := h2
        simp only [CHUNK_SIZE_eq] at h2' ⊢
        omega
      refine ⟨ha, ?_⟩
      rw [hb, seg_append_stable hseg]
    · intro hdd
      exact absurd hdd (by simp)

theorem invF_exec (ops : List StoreOp) :
    InvF (execOps ops).1 (execOps ops).2 (appendedChars ops) := by
  induction ops using List.reverseRecOn with
  | nil => exact invF_init
  | append_singleton ops op ih =>
    have hex : execOps (ops ++ [op])
        = (match op with
          | .app ch =>
            ((FirestoreChunkStore.append (execOps ops).1 (execOps ops).2 ch).1,
              (FirestoreChunkStore.append (execOps ops).1 (execOps ops).2 ch).2.1)
          | .tick => FirestoreChunkStore.flushCursor (execOps ops).1 (execOps ops).2) := by
      unfold execOps
      rw [List.foldl_append]
      rfl
    cases op with
    | app ch =>
      have hch : appendedChars (ops ++ [StoreOp.app ch]) = appendedChars ops ++ [ch] := by
        unfold appendedChars
        rw [List.filterMap_append]
        rfl
      rw [hex, hch]
      exact invF_append ih
    | tick =>
      have hch : appendedChars (ops ++ [StoreOp.tick]) = appendedChars ops := by
        unfold appendedChars
        rw [List.filterMap_append]
        simp
      rw [hex, hch]
      exact invF_tick ih

theorem readChunk_invF {st : FirestoreChunkStore} {be : Backend} {l : List Char}
    (h : InvF st be l) (id : Nat) :
    st.readChunk be id = (l.drop (id * CHUNK_SIZE)).take CHUNK_SIZE := by
  obtain ⟨h1, h2, h3, h4, h5, h6, h7⟩ := h
  unfold FirestoreChunkStore.readChunk
  by_cases hid : id = st.workingChunkId
  · rw [if_pos hid, h3, ← hid]
    refine (List.take_of_length_le ?_).symm
    rw [List.length_drop]
    have hid' : id = l.length / CHUNK_SIZE := hid.trans h2
    simp only [CHUNK_SIZE_eq] at hid' ⊢
    omega
  · rw [if_neg hid]
    cases hg : lruGet st.cache id with
    | some t =>
      simp only [hg]
      obtain ⟨ha, hb⟩ := h6 (id, t) (lruGet_some hg)
      exact hb
    | none =>
      simp only [hg]
      by_cases hlt : id < st.workingChunkId
      · rw [h4 id hlt]
        rfl
      · have hgt : st.workingChunkId < id := by omega
        rw [h5 id hgt]
        show ([] : List Char) = _
        have hge : l.length ≤ id * CHUNK_SIZE := by
          have h2' := h2
          simp only [CHUNK_SIZE_eq] at h2' ⊢
          omega
        rw [List.drop_of_length_le hge]
        rfl

theorem invF_close {st : FirestoreChunkStore} {be : Backend} {l : List Char}
    (h : InvF st be l) :
    InvF (st.close be).1 (st.close be).2 l ∧ (st.close be).1.cursorDirty = false := by
  refine ⟨invF_tick h, ?_⟩
  unfold FirestoreChunkStore.close FirestoreChunkStore.flushCursor
  by_cases hd : st.cursorDirty = true
  · rw [if_pos hd]
  · rw [if_neg hd]
    exact Bool.not_eq_true _ |>.mp hd

theorem invF_create_of_closed {st : FirestoreChunkStore} {be : Backend}
    {l : List Char} (h : InvF st be l) (hd : st.cursorDirty = false) :
    InvF (FirestoreChunkStore.create be) be l := by
  obtain ⟨h1, h2, h3, h4, h5, h6, h7⟩ := h
  obtain ⟨hcd, hwc⟩ := h7 hd
  have hcur : be.cursorDoc.getD 0 = l.length := by
    rcases hcd with hc | ⟨hc, hc0⟩
    · rw [hc]
      simpa using h1
    · rw [hc]
      simp only [Option.getD_none]
      omega
  have hwclen : st.workingChunk.length = l.length - st.workingChunkId * CHUNK_SIZE := by
    rw [h3, List.length_drop]
  have hlenne : st.workingChunk.length ≠ CHUNK_SIZE := by
    have h2' := h2
    simp only [CHUNK_SIZE_eq] at h2' hwclen ⊢
    omega
  rcases hwc with hwcs | ⟨hwnil, hwcn⟩
  · have hcreate : FirestoreChunkStore.create be
        = ⟨st.workingChunk, st.workingChunkId, l.length, false, []⟩ := by
      simp only [FirestoreChunkStore.create, hcur, ← h2, hwcs]
      rw [if_neg hlenne]
    rw [hcreate]
    refine ⟨rfl, h2, h3, h4, h5, ?_, ?_⟩
    · intro e he
      exact absurd he (by simp)
    · intro _
      refine ⟨?_, Or.inl ?_⟩
      · rcases hcd with hc | ⟨hc, hc0⟩
        · left
          rw [hc, h1]
        · right
          refine ⟨hc, ?_⟩
          show l.length = 0
          omega
      · show be.chunks st.workingChunkId = some st.workingChunk
        exact hwcs
  · have hcreate : FirestoreChunkStore.create be
        = ⟨[], st.workingChunkId, l.length, false, []⟩ := by
      simp only [FirestoreChunkStore.create, hcur, ← h2, hwcn]
    rw [hcreate]
    refine ⟨rfl, h2, ?_, h4, h5, ?_, ?_⟩
    · show ([] : List Char) = l.drop (st.workingChunkId * CHUNK_SIZE)
      rw [← h3, hwnil]
    · intro e he
      exact absurd he (by simp)
    · intro _
      refine ⟨?_, Or.inr ⟨rfl, hwcn⟩⟩
      rcases hcd with hc | ⟨hc, hc0⟩
      · left
        rw [hc, h1]
      · right
        refine ⟨hc, ?_⟩
        show l.length = 0
        omega

/-- Claim C6: closing the chunk store and re-creating one over the same backend
yields a store with the same cursor whose readSlice(0, cursor) is exactly the
prefix produced by all prior append calls (for any interleaving of appends and
cursor-flush timer ticks starting from an empty backend); the old store read
the same prefix. -/
theorem close_create_roundtrip (ops : List StoreOp) :
    (FirestoreChunkStore.create ((execOps ops).1.close (execOps ops).2).2).cursor
        = (execOps ops).1.cursor ∧
    (FirestoreChunkStore.create ((execOps ops).1.close (execOps ops).2).2).readSlice
        ((execOps ops).1.close (execOps ops).2).2 0
        (FirestoreChunkStore.create ((execOps ops).1.close (execOps ops).2).2).cursor
      = appendedChars ops ∧
    (execOps ops).1.readSlice (execOps ops).2 0 (execOps ops).1.cursor
      = appendedChars ops := by
  have h := invF_exec ops
  obtain ⟨hc, hdirty⟩ := invF_close h
  have h' := invF_create_of_closed hc hdirty
  have hcur' : (FirestoreChunkStore.create
      ((execOps ops).1.close (execOps ops).2).2).cursor
      = (appendedChars ops).length := h'.1
  have hcurold : (execOps ops).1.cursor = (appendedChars ops).length := h.1
  refine ⟨hcur'.trans hcurold.symm, ?_, ?_⟩
  · unfold FirestoreChunkStore.readSlice
    rw [sliceAlg_eq _ (appendedChars ops) (readChunk_invF h'), hcur']
    rw [List.drop_zero, List.take_length]
  · unfold FirestoreChunkStore.readSlice
    rw [sliceAlg_eq _ (appendedChars ops) (readChunk_invF h), hcurold]
    rw [List.drop_zero, List.take_length]

/-- Claim C7: readSlice(a, b) ++ readSlice(a + b, c) = readSlice(a, b + c)
whenever a + b + c ≤ cursor, on the in-memory store reached by any sequence
of appends and on the Firestore-backed store reached by any sequence of
appends and flush ticks. -/
theorem readSlice_concat (l : List Char) (ops : List StoreOp) (a b c : Nat) :
    (a + b + c ≤ (MemoryChunkStore.ofList l).cursor →
      (MemoryChunkStore.ofList l).readSlice a b
          ++ (MemoryChunkStore.ofList l).readSlice (a + b) c
        = (MemoryChunkStore.ofList l).readSlice a (b + c)) ∧
    (a + b + c ≤ (execOps ops).1.cursor →
      (execOps ops).1.readSlice (execOps ops).2 a b
          ++ (execOps ops).1.readSlice (execOps ops).2 (a + b) c
        = (execOps ops).1.readSlice (execOps ops).2 a (b + c)) := by
  constructor
  · intro _
    unfold MemoryChunkStore.readSlice
    rw [sliceAlg_eq _ l (readChunk_ofList l), sliceAlg_eq _ l (readChunk_ofList l),
      sliceAlg_eq _ l (readChunk_ofList l)]
    rw [List.take_add, List.drop_drop]
  · intro _
    have h := invF_exec ops
    unfold FirestoreChunkStore.readSlice
    rw [sliceAlg_eq _ _ (readChunk_invF h), sliceAlg_eq _ _ (readChunk_invF h),
      sliceAlg_eq _ _ (readChunk_invF h)]
    rw [List.take_add, List.drop_drop]

theorem readSlice_concat_witness :
    ((MemoryChunkStore.ofList ['a', 'b', 'c', 'd', 'e']).readSlice 1 2
        ++ (MemoryChunkStore.ofList ['a', 'b', 'c', 'd', 'e']).readSlice 3 1
      = (MemoryChunkStore.ofList ['a', 'b', 'c', 'd', 'e']).readSlice 1 3) ∧
    ((execOps [StoreOp.app 'x', StoreOp.app 'y', StoreOp.tick,
        StoreOp.app 'z']).1.readSlice
          (execOps [StoreOp.app 'x', StoreOp.app 'y', StoreOp.tick,
            StoreOp.app 'z']).2 1 2
        ++ (execOps [StoreOp.app 'x', StoreOp.app 'y', StoreOp.tick,
            StoreOp.app 'z']).1.readSlice
          (execOps [StoreOp.app 'x', StoreOp.app 'y', StoreOp.tick,
            StoreOp.app 'z']).2 3 0
      = (execOps [StoreOp.app 'x', StoreOp.app 'y', StoreOp.tick,
            StoreOp.app 'z']).1.readSlice
          (execOps [StoreOp.app 'x', StoreOp.app 'y', StoreOp.tick,
            StoreOp.app 'z']).2 1 2) :=
  ⟨(readSlice_concat ['a', 'b', 'c', 'd', 'e'] [] 1 2 1).1 (by decide),
   (readSlice_concat []
      [StoreOp.app 'x', StoreOp.app 'y', StoreOp.tick, StoreOp.app 'z'] 1 2 0).2
     (by decide)⟩

/-! ## Broadcast ordering (claim C5) -/

theorem charIndices_append (t1 t2 : List Ev) :
    charIndices (t1 ++ t2) = charIndices t1 ++ charIndices t2 :=
  List.filterMap_append _ _ _

/-- Claim C5 is false as stated: the word listener broadcasts inside
monkey.next(), before the loop broadcasts the char event of the word's last
character.  With dictionary {"cat"} and stream "cat" the word event
{start 0, len 3} occupies trace position 2, before the char event for index
s + len - 1 = 2 at trace position 3 — not after it. -/
theorem word_event_order_counterexample :
    (charTrace dictCat streamCat 3).2
      = [Ev.char 0 'c', Ev.char 1 'a',
          Ev.word ⟨0, 3, ['c', 'a', 't']⟩, Ev.char 2 't'] ∧
    idxOfEv (charTrace dictCat streamCat 3).2 (Ev.word ⟨0, 3, ['c', 'a', 't']⟩)
        < idxOfEv (charTrace dictCat streamCat 3).2 (Ev.char 2 't') ∧
    ¬ idxOfEv (charTrace dictCat streamCat 3).2 (Ev.char 2 't')
        < idxOfEv (charTrace dictCat streamCat 3).2 (Ev.word ⟨0, 3, ['c', 'a', 't']⟩) := by
  refine ⟨by decide, by decide, by decide⟩

/-- Claim C5 amended: char events are broadcast in strictly increasing index
order (the char indices of the trace are exactly 0, …, n-1 in order), and every
word event with start s and length len is broadcast after the char events for
all indices < s + len - 1 and immediately before the char event for index
e = s + len - 1. -/
theorem word_event_ordering (dict : List (List Char)) (stream : Nat → Char)
    (n : Nat) :
    charIndices (charTrace dict stream n).2 = List.range n ∧
    ∀ h, Ev.word h ∈ (charTrace dict stream n).2 →
      ∃ e pre post, ((e : Nat) : Int) = h.start + h.len - 1 ∧
        (charTrace dict stream n).2
          = pre ++ Ev.word h :: Ev.char e (stream e) :: post ∧
        ∀ j c, Ev.char j c ∈ pre → j < e := by
  induction n with
  | zero =>
    constructor
    · rfl
    · intro h hmem
      exact absurd hmem (by simp [charTrace])
  | succ n ih =>
    obtain ⟨ih1, ih2⟩ := ih
    have htr : (charTrace dict stream (n + 1)).2
        = (charTrace dict stream n).2
          ++ (push dict (charTrace dict stream n).1 (stream n) n).2.toList.map Ev.word
          ++ [Ev.char n (stream n)] := rfl
    constructor
    · rw [htr, charIndices_append, charIndices_append, ih1]
      have hw : charIndices
          ((push dict (charTrace dict stream n).1 (stream n) n).2.toList.map Ev.word)
          = [] := by
        cases (push dict (charTrace dict stream n).1 (stream n) n).2 <;> rfl
      rw [hw, List.range_succ]
      simp [charIndices]
    · intro h hmem
      rw [htr] at hmem
      rcases List.mem_append.mp hmem with hmem1 | hmem2
      · rcases List.mem_append.mp hmem1 with hmemA | hmemB
        · obtain ⟨e, pre, post, he, heq, hpre⟩ := ih2 h hmemA
          refine ⟨e, pre,
            post ++ (push dict (charTrace dict stream n).1 (stream n) n).2.toList.map Ev.word
              ++ [Ev.char n (stream n)], he, ?_, hpre⟩
          rw [htr, heq]
          simp [List.append_assoc]
        · have hp : (push dict (charTrace dict stream n).1 (stream n) n).2 = some h := by
            cases hps : (push dict (charTrace dict stream n).1 (stream n) n).2 with
            | none =>
              rw [hps] at hmemB
              exact absurd hmemB (by simp)
            | some h' =>
              rw [hps] at hmemB
              simp only [Option.toList_some, List.map_cons, List.map_nil,
                List.mem_singleton, Ev.word.injEq] at hmemB
              rw [hmemB]
          have hspec := scanDown_some_spec dict
            (push dict (charTrace dict stream n).1 (stream n) n).1 n _ h hp
          obtain ⟨_, _, hstart, _, _, _⟩ := hspec
          have he : ((n : Nat) : Int) = h.start + h.len - 1 := by
            rw [hstart]
            ring
          refine ⟨n, (charTrace dict stream n).2, [], he, ?_, ?_⟩
          · rw [htr, hp]
            simp
          · intro j c hc
            have hj : j ∈ charIndices (charTrace dict stream n).2 := by
              unfold charIndices
              exact List.mem_filterMap.mpr ⟨Ev.char j c, hc, rfl⟩
            rw [ih1] at hj
            exact List.mem_range.mp hj
      · exact absurd hmem2 (by simp)

theorem word_event_ordering_witness :
    ∃ e pre post,
      ((e : Nat) : Int) = (⟨0, 3, ['c', 'a', 't']⟩ : WordHit).start
        + (⟨0, 3, ['c', 'a', 't']⟩ : WordHit).len - 1 ∧
      (charTrace dictCat streamCat 3).2
        = pre ++ Ev.word ⟨0, 3, ['c', 'a', 't']⟩ :: Ev.char e (streamCat e) :: post ∧
      ∀ j c, Ev.char j c ∈ pre → j < e :=
  (word_event_ordering dictCat streamCat 3).2 ⟨0, 3, ['c', 'a', 't']⟩ (by decide)

/-! ## Startup scanner lemmas (claim C3) -/

theorem sliceL_length (stream : Nat → Char) (s0 k : Nat) :
    (sliceL stream s0 k).length = k := by
  simp [sliceL]

theorem sliceL_succ (stream : Nat → Char) (s0 k : Nat) :
    sliceL stream s0 (k + 1) = sliceL stream s0 k ++ [stream (s0 + k)] := by
  unfold sliceL
  rw [List.range_succ, List.map_append]
  rfl

theorem sliceL_append (stream : Nat → Char) (s0 a b : Nat) :
    sliceL stream s0 (a + b) = sliceL stream s0 a ++ sliceL stream (s0 + a) b := by
  induction b with
  | zero => simp [sliceL]
  | succ b ih =>
    rw [show a + (b + 1) = (a + b) + 1 from by omega, sliceL_succ, ih, sliceL_succ,
      List.append_assoc]
    rw [show s0 + (a + b) = s0 + a + b from by omega]

theorem lastN_sliceL (stream : Nat → Char) (s0 m n : Nat) (h : n ≤ m) :
    lastN n (sliceL stream s0 m) = sliceL stream (s0 + (m - n)) n := by
  unfold lastN
  rw [sliceL_length]
  rw [show sliceL stream s0 m
      = sliceL stream s0 (m - n) ++ sliceL stream (s0 + (m - n)) n from by
    rw [← sliceL_append]
    congr 1
    omega]
  rw [List.drop_left' (by rw [sliceL_length])]

theorem runDet_append (dict : List (List Char)) (t1 : List Char) :
    ∀ (w : List Char) (pos : Nat) (t2 : List Char),
    runDet dict w pos (t1 ++ t2)
      = ((runDet dict (runDet dict w pos t1).1 (pos + t1.length) t2).1,
         (runDet dict w pos t1).2
           ++ (runDet dict (runDet dict w pos t1).1 (pos + t1.length) t2).2) := by
  induction t1 with
  | nil =>
    intro w pos t2
    simp [runDet]
  | cons ch rest ih =>
    intro w pos t2
    simp only [List.cons_append, runDet, List.append_eq]
    rw [ih]
    simp only [List.length_cons]
    rw [show pos + (rest.length + 1) = pos + 1 + rest.length from by omega]
    simp [List.append_assoc]

theorem runDet_window (dict : List (List Char)) (t : List Char) :
    ∀ (hist : List Char) (pos : Nat),
    (runDet dict (lastN MAX_LEN hist) pos t).1 = lastN MAX_LEN (hist ++ t) := by
  induction t with
  | nil =>
    intro hist pos
    simp [runDet]
  | cons ch rest ih =>
    intro hist pos
    show (runDet dict (push dict (lastN MAX_LEN hist) ch pos).1 (pos + 1) rest).1 = _
    have hp : (push dict (lastN MAX_LEN hist) ch pos).1
        = lastN MAX_LEN (hist ++ [ch]) := pushWindow_lastN hist ch
    rw [hp, ih (hist ++ [ch]) (pos + 1), List.append_assoc]
    rfl

theorem runDet_window_nil (dict : List (List Char)) (t : List Char) (pos : Nat) :
    (runDet dict [] pos t).1 = lastN MAX_LEN t := by
  have h := runDet_window dict t [] pos
  simp only [List.nil_append] at h
  have h0 : lastN MAX_LEN ([] : List Char) = [] := rfl
  rw [h0] at h
  exact h

theorem runDet_start_bound (dict : List (List Char)) (t : List Char) :
    ∀ (w : List Char) (pos : Nat) (h : WordHit), h ∈ (runDet dict w pos t).2 →
      h.start + 3 ≤ (pos : Int) + t.length := by
  induction t with
  | nil =>
    intro w pos h hm
    exact absurd hm (by simp [runDet])
  | cons ch rest ih =>
    intro w pos h hm
    have hm' : h ∈ (push dict w ch pos).2.toList
        ++ (runDet dict (push dict w ch pos).1 (pos + 1) rest).2 := hm
    rcases List.mem_append.mp hm' with h1 | h2
    · have hp : (push dict w ch pos).2 = some h := by
        cases hps : (push dict w ch pos).2 with
        | none =>
          rw [hps] at h1
          exact absurd h1 (by simp)
        | some h' =>
          rw [hps] at h1
          simp only [Option.toList_some, List.mem_singleton] at h1
          rw [h1]
      obtain ⟨hmin, _, hstart, _, _, _⟩ := scanDown_some_spec dict _ pos _ h hp
      rw [hstart]
      simp only [List.length_cons]
      unfold MIN_LEN at hmin
      push_cast
      omega
    · have hb := ih _ (pos + 1) h h2
      simp only [List.length_cons]
      push_cast at hb ⊢
      omega

theorem feedChars_spec (dict : List (List Char)) (H : Nat) (text : List Char) :
    ∀ (w : List Char) (absPos : Nat) (acc : List WordHit),
    feedChars dict H text w absPos acc
      = ((runDet dict w absPos text).1, absPos + text.length,
          acc ++ (runDet dict w absPos text).2.filter
            (fun h => decide ((H : Int) ≤ h.start))) := by
  induction text with
  | nil =>
    intro w absPos acc
    simp [feedChars, runDet]
  | cons ch rest ih =>
    intro w absPos acc
    show feedChars dict H rest (push dict w ch absPos).1 (absPos + 1)
        (acc ++ (push dict w ch absPos).2.toList.filter
          (fun h => decide ((H : Int) ≤ h.start))) = _
    rw [ih]
    simp only [Prod.mk.injEq]
    refine ⟨rfl, ?_, ?_⟩
    · simp only [List.length_cons]
      omega
    · show acc ++ _ ++ _ = acc ++ List.filter _
        ((push dict w ch absPos).2.toList
          ++ (runDet dict (push dict w ch absPos).1 (absPos + 1) rest).2)
      rw [List.filter_append, List.append_assoc]

theorem runDet_hits_succ (dict : List (List Char)) (stream : Nat → Char)
    (s0 k : Nat) :
    (runDet dict [] s0 (sliceL stream s0 (k + 1))).2
      = (runDet dict [] s0 (sliceL stream s0 k)).2
        ++ (posHit dict stream s0 (s0 + k)).toList := by
  rw [sliceL_succ, runDet_append]
  simp only [sliceL_length]
  congr 1
  rw [runDet_window_nil]
  show (push dict (lastN MAX_LEN (sliceL stream s0 k)) (stream (s0 + k)) (s0 + k)).2.toList
      ++ [] = _
  rw [List.append_nil]
  have hW : (push dict (lastN MAX_LEN (sliceL stream s0 k)) (stream (s0 + k)) (s0 + k)).1
      = lastN MAX_LEN (sliceL stream s0 (k + 1)) := by
    show pushWindow (lastN MAX_LEN (sliceL stream s0 k)) (stream (s0 + k)) = _
    rw [pushWindow_lastN, ← sliceL_succ]
  have hsnd : (push dict (lastN MAX_LEN (sliceL stream s0 k)) (stream (s0 + k)) (s0 + k)).2
      = scanDown dict (lastN MAX_LEN (sliceL stream s0 (k + 1))) (s0 + k)
          (min MAX_LEN (lastN MAX_LEN (sliceL stream s0 (k + 1))).length) := by
    rw [show (push dict (lastN MAX_LEN (sliceL stream s0 k)) (stream (s0 + k)) (s0 + k)).2
        = scanDown dict
            (push dict (lastN MAX_LEN (sliceL stream s0 k)) (stream (s0 + k)) (s0 + k)).1
            (s0 + k)
            (min MAX_LEN
              (push dict (lastN MAX_LEN (sliceL stream s0 k)) (stream (s0 + k)) (s0 + k)).1.length)
      from rfl]
    rw [hW]
  rw [hsnd]
  unfold posHit
  rw [show s0 + k + 1 - s0 = k + 1 from by omega]

theorem scanLoop_spec (dict : List (List Char)) (stream : Nat → Char)
    (readSlice : Nat → Nat → List Char)
    (hrs : ∀ p n, readSlice p n = sliceL stream p n) (cursor H : Nat) :
    ∀ (fuel readPos : Nat) (w : List Char) (acc : List WordHit),
      cursor - readPos ≤ fuel →
      scanLoop dict readSlice cursor H fuel readPos readPos w acc
        = acc ++ (runDet dict w readPos
            (sliceL stream readPos (cursor - readPos))).2.filter
              (fun h => decide ((H : Int) ≤ h.start)) := by
  intro fuel
  induction fuel with
  | zero =>
    intro readPos w acc hle
    have h0 : cursor - readPos = 0 := by omega
    rw [h0]
    simp [scanLoop, sliceL, runDet]
  | succ fuel ih =>
    intro readPos w acc hle
    by_cases hlt : readPos < cursor
    · show (if readPos < cursor then _ else acc) = _
      rw [if_pos hlt]
      simp only [hrs, feedChars_spec, sliceL_length]
      rw [ih (readPos + min 8192 (cursor - readPos))
        (runDet dict w readPos (sliceL stream readPos (min 8192 (cursor - readPos)))).1
        (acc ++ List.filter (fun h => decide ((H : Int) ≤ h.start))
          (runDet dict w readPos (sliceL stream readPos (min 8192 (cursor - readPos)))).2)
        (by omega)]
      have hsplit : sliceL stream readPos (cursor - readPos)
          = sliceL stream readPos (min 8192 (cursor - readPos))
            ++ sliceL stream (readPos + min 8192 (cursor - readPos))
                (cursor - (readPos + min 8192 (cursor - readPos))) := by
        rw [← sliceL_append]
        congr 1
        omega
      conv_rhs => rw [hsplit]
      rw [runDet_append]
      simp only [sliceL_length]
      rw [List.filter_append, List.append_assoc]
    · show (if readPos < cursor then _ else acc) = _
      rw [if_neg hlt]
      have h0 : cursor - readPos = 0 := by omega
      rw [h0]
      simp [sliceL, runDet]

theorem posHit_some (dict : List (List Char)) (stream : Nat → Char)
    (s0 q : Nat) (h : WordHit) (hp : posHit dict stream s0 q = some h) :
    h.start = (q : Int) - h.len + 1 ∧ MIN_LEN ≤ h.len := by
  obtain ⟨ha, _, hc, _, _, _⟩ := scanDown_some_spec dict _ q _ h hp
  exact ⟨hc, ha⟩

theorem posHit_eq_full (dict : List (List Char)) (stream : Nat → Char)
    (s0 q : Nat) (hcond : s0 + MAX_LEN ≤ q + 1) :
    posHit dict stream s0 q = posHit dict stream 0 q := by
  unfold posHit
  have h1 : lastN MAX_LEN (sliceL stream s0 (q + 1 - s0))
      = sliceL stream (q + 1 - MAX_LEN) MAX_LEN := by
    rw [lastN_sliceL stream s0 _ _ (by omega)]
    congr 1
    omega
  have h2 : lastN MAX_LEN (sliceL stream 0 (q + 1 - 0))
      = sliceL stream (q + 1 - MAX_LEN) MAX_LEN := by
    rw [lastN_sliceL stream 0 _ _ (by omega)]
    congr 1
    omega
  rw [h1, h2]

theorem hits_filter_eq (dict : List (List Char)) (stream : Nat → Char)
    (H : Nat) (hH : 20 < H) :
    ∀ k, ((runDet dict [] (H - 20) (sliceL stream (H - 20) k)).2).filter
        (fun h => decide ((H : Int) ≤ h.start))
      = ((runDet dict [] 0 (sliceL stream 0 ((H - 20) + k))).2).filter
        (fun h => decide ((H : Int) ≤ h.start)) := by
  intro k
  induction k with
  | zero =>
    rw [Nat.add_zero]
    have h0 : sliceL stream (H - 20) 0 = [] := rfl
    rw [h0]
    show List.filter _ ([] : List WordHit) = _
    rw [List.filter_nil]
    symm
    rw [List.filter_eq_nil_iff]
    intro h hm
    have hb := runDet_start_bound dict _ [] 0 h hm
    rw [sliceL_length] at hb
    simp only [decide_eq_true_eq]
    push_cast at hb ⊢
    omega
  | succ k ih =>
    rw [runDet_hits_succ dict stream (H - 20) k]
    rw [show (H - 20) + (k + 1) = ((H - 20) + k) + 1 from by omega]
    rw [runDet_hits_succ dict stream 0 ((H - 20) + k)]
    rw [List.filter_append, List.filter_append, ih, Nat.zero_add]
    have hpos : List.filter (fun h => decide ((H : Int) ≤ h.start))
          (posHit dict stream (H - 20) ((H - 20) + k)).toList
        = List.filter (fun h => decide ((H : Int) ≤ h.start))
          (posHit dict stream 0 ((H - 20) + k)).toList := by
      by_cases hbig : (H - 20) + MAX_LEN ≤ ((H - 20) + k) + 1
      · rw [posHit_eq_full dict stream (H - 20) ((H - 20) + k) hbig]
      · have hfil : ∀ s0' : Nat,
            List.filter (fun h => decide ((H : Int) ≤ h.start))
              (posHit dict stream s0' ((H - 20) + k)).toList = [] := by
          intro s0'
          cases hp : posHit dict stream s0' ((H - 20) + k) with
          | none => rfl
          | some h =>
            simp only [Option.toList_some]
            rw [List.filter_eq_nil_iff]
            intro h' hm'
            simp only [List.mem_singleton] at hm'
            subst hm'
            obtain ⟨hst, hmin⟩ := posHit_some dict stream s0' _ h' hp
            simp only [decide_eq_true_eq]
            rw [hst]
            unfold MIN_LEN at hmin
            unfold MAX_LEN at hbig
            push_cast
            omega
        rw [hfil (H - 20), hfil 0]
    rw [hpos]

/-- Claim C3: for a high-water mark H ≤ cursor, scanMissingWords(H) — run
against any store whose readSlice returns the true characters of the stream —
returns exactly the hits with start in [H, cursor) that one uninterrupted
detector run over positions [0, cursor) emits, in the same order. -/
theorem startup_scan_matches_full_run (dict : List (List Char))
    (stream : Nat → Char) (readSlice : Nat → Nat → List Char) (cursor H : Nat)
    (hrs : ∀ p n, readSlice p n = sliceL stream p n) (hHc : H ≤ cursor) :
    scanMissingWords dict readSlice cursor H
      = (fullRunHits dict stream cursor).filter
          (fun h => decide ((H : Int) ≤ h.start ∧ h.start < (cursor : Int))) := by
  by_cases hcle : cursor ≤ H
  · unfold scanMissingWords
    rw [if_pos hcle]
    symm
    rw [List.filter_eq_nil_iff]
    intro h hm
    have hb := runDet_start_bound dict _ [] 0 h hm
    rw [sliceL_length] at hb
    simp only [decide_eq_true_eq, not_and, not_lt]
    intro hA
    push_cast at hb hA ⊢
    omega
  · push_neg at hcle
    have hPP : (fullRunHits dict stream cursor).filter
          (fun h => decide ((H : Int) ≤ h.start ∧ h.start < (cursor : Int)))
        = (fullRunHits dict stream cursor).filter
          (fun h => decide ((H : Int) ≤ h.start)) := by
      apply List.filter_congr
      intro h hm
      have hb := runDet_start_bound dict _ [] 0 h hm
      rw [sliceL_length] at hb
      rw [decide_eq_decide]
      constructor
      · exact And.left
      · intro hA
        refine ⟨hA, ?_⟩
        push_cast at hb ⊢
        omega
    rw [hPP]
    show (if cursor ≤ H then [] else _) = _
    rw [if_neg (by omega)]
    rw [scanLoop_spec dict stream readSlice hrs cursor H
      (cursor - scanStartPosition H) (scanStartPosition H) [] [] (by omega)]
    rw [List.nil_append]
    by_cases h20 : H ≤ 20
    · rw [show scanStartPosition H = 0 from by unfold scanStartPosition; omega]
      rw [Nat.sub_zero]
      rfl
    · push_neg at h20
      rw [show scanStartPosition H = H - 20 from by unfold scanStartPosition; omega]
      have hmain := hits_filter_eq dict stream H h20 (cursor - (H - 20))
      rw [show (H - 20) + (cursor - (H - 20)) = cursor from by omega] at hmain
      exact hmain

theorem startup_scan_matches_full_run_witness :
    scanMissingWords dictCat (fun p n => sliceL streamXcatx p n) 10 2
      = (fullRunHits dictCat streamXcatx 10).filter
          (fun h => decide ((2 : Int) ≤ h.start ∧ h.start < (10 : Int))) :=
  startup_scan_matches_full_run dictCat streamXcatx
    (fun p n => sliceL streamXcatx p n) 10 2 (fun _ _ => rfl) (by omega)

end TM
